import Mathlib

/-! hpx: the hardware timestamp and the container overload of `generate`

A shallow embedding of

* `libs/core/hardware/include/hpx/hardware/timestamp/linux_x86_64.hpp`
* `libs/core/hardware/include/hpx/hardware/timestamp/bgq.hpp`
* `libs/algorithms/include/hpx/parallel/container_algorithms/generate.hpp`

Machine integers are natural numbers with an explicit reduction modulo `2 ^ w`
wherever the C++ type narrows or an operation can overflow.
-/

set_option autoImplicit false

/-! ## Part 1: the hardware timestamp -/

/-- The preprocessor symbols the two `timestamp()` bodies branch on; `true`
means the symbol is defined for the translation unit being compiled. -/
structure BuildConfig where
  /-- The symbol `HPX_HAVE_CUDA`. -/
  HPX_HAVE_CUDA : Bool
  /-- The symbol `__CUDA_ARCH__` (the device compilation pass). -/
  CUDA_ARCH : Bool
  /-- The symbol `HPX_HAVE_RDTSCP`. -/
  HPX_HAVE_RDTSCP : Bool
  /-- The symbol `HPX_HAVE_RDTSC`. -/
  HPX_HAVE_RDTSC : Bool
deriving DecidableEq, Repr

/-- The condition `defined(HPX_HAVE_CUDA) && defined(__CUDA_ARCH__)`. -/
def BuildConfig.cudaActive (cfg : BuildConfig) : Bool :=
  cfg.HPX_HAVE_CUDA && cfg.CUDA_ARCH

/-- What the counters outside the program would deliver at the moment of one
call.  `timestamp_cuda` and `GetTimeBase` are the `std::uint64_t` values the
two external functions return; `rdtscp` and `rdtsc` are the contents of
`(EAX, EDX)` after the `rdtscp` instruction, respectively after the
`cpuid ; rdtsc` sequence. -/
structure Counters where
  /-- The value returned by `timestamp_cuda()`. -/
  timestamp_cuda : Nat
  /-- The pair `(EAX, EDX)` left by `rdtscp`. -/
  rdtscp : Nat × Nat
  /-- The pair `(EAX, EDX)` left by `cpuid ; rdtsc`. -/
  rdtsc : Nat × Nat
  /-- The value returned by `GetTimeBase()`. -/
  GetTimeBase : Nat
deriving DecidableEq, Repr

namespace linux_x86_64

/-- The locals `(lo, hi)` of `timestamp()` after the inline assembly block:
both start at `0`, and the block that the build selects stores `EAX` into
`lo` and `EDX` into `hi`, each a `std::uint32_t`. -/
def lo_hi (cfg : BuildConfig) (hw : Counters) : Nat × Nat :=
  if cfg.HPX_HAVE_RDTSCP then
    (hw.rdtscp.1 % 2 ^ 32, hw.rdtscp.2 % 2 ^ 32)
  else if cfg.HPX_HAVE_RDTSC then
    (hw.rdtsc.1 % 2 ^ 32, hw.rdtsc.2 % 2 ^ 32)
  else
    (0, 0)

/-- The return expression `((static_cast<std::uint64_t>(hi)) << 32) | lo` on
the `std::uint32_t` locals `lo` and `hi`; the shift is a 64-bit shift. -/
def combine (lo hi : Nat) : Nat :=
  (((hi % 2 ^ 32) <<< 32) % 2 ^ 64) ||| (lo % 2 ^ 32)

/-- The function `hpx::util::hardware::timestamp` of `linux_x86_64.hpp`. -/
def timestamp (cfg : BuildConfig) (hw : Counters) : Nat :=
  if cfg.cudaActive then
    hw.timestamp_cuda
  else
    combine (lo_hi cfg hw).1 (lo_hi cfg hw).2

end linux_x86_64

namespace bgq

/-- The function `hpx::util::hardware::timestamp` of `bgq.hpp` (the file is
compiled only when `__bgq__` is defined). -/
def timestamp (cfg : BuildConfig) (hw : Counters) : Nat :=
  if cfg.cudaActive then
    hw.timestamp_cuda
  else
    hw.GetTimeBase

end bgq

/-- The order of the 64-bit counter `EDX:EAX` on its halves: the pair
`(lo₁, hi₁)` is not later than `(lo₂, hi₂)`. -/
def halvesLE (a b : Nat × Nat) : Prop :=
  a.2 < b.2 ∨ (a.2 = b.2 ∧ a.1 ≤ b.1)

instance (a b : Nat × Nat) : Decidable (halvesLE a b) := by
  unfold halvesLE; infer_instance

/-- The configured counter read of the x86-64 build leaves `lo` in `EAX` and
`hi` in `EDX`: through `rdtscp` when `HPX_HAVE_RDTSCP` is defined, through
`cpuid ; rdtsc` when only `HPX_HAVE_RDTSC` is. -/
def delivers (cfg : BuildConfig) (hw : Counters) (lo hi : Nat) : Prop :=
  (cfg.HPX_HAVE_RDTSCP = true ∧ hw.rdtscp = (lo, hi)) ∨
  (cfg.HPX_HAVE_RDTSCP = false ∧ cfg.HPX_HAVE_RDTSC = true ∧ hw.rdtsc = (lo, hi))

instance (cfg : BuildConfig) (hw : Counters) (lo hi : Nat) :
    Decidable (delivers cfg hw lo hi) := by
  unfold delivers; infer_instance

/-! ## Part 2: the container overload of `generate` -/

/-- The closed set of execution policy tags. -/
inductive ExecutionPolicy where
  | sequenced
  | parallel
  | sequenced_task
  | parallel_task
deriving DecidableEq, Repr

/-- The sequential / parallel axis of the taxonomy. -/
def ExecutionPolicy.is_parallel : ExecutionPolicy → Bool
  | .sequenced => false
  | .parallel => true
  | .sequenced_task => false
  | .parallel_task => true

/-- The two shapes a returned value can have. -/
inductive ResultShape where
  | direct
  | future
deriving DecidableEq, Repr

/-- The value returned by a dispatch: a position, or an asynchronous handle
carrying the position it yields once it has completed. -/
inductive ResultHandle (ι : Type) where
  | direct (p : ι)
  | future (p : ι)
deriving DecidableEq, Repr

/-- The shape of a returned value. -/
def ResultHandle.shape {ι : Type} : ResultHandle ι → ResultShape
  | .direct _ => .direct
  | .future _ => .future

/-- The position a returned value holds, respectively eventually yields. -/
def ResultHandle.get {ι : Type} : ResultHandle ι → ι
  | .direct p => p
  | .future p => p

/-- Modelled from the spec: the Result Resolver (`util::detail::algorithm_result`,
whose header is not among the sources), "{Sequenced, Parallel} → direct value;
{SequencedTask, ParallelTask} → asynchronous handle". -/
def algorithm_result_shape : ExecutionPolicy → ResultShape
  | .sequenced => .direct
  | .parallel => .direct
  | .sequenced_task => .future
  | .parallel_task => .future

/-- Modelled from the spec: the Result Resolver applied to a terminal position:
the position itself, or the handle that yields it. -/
def algorithm_result_get {ι : Type} (policy : ExecutionPolicy) (p : ι) : ResultHandle ι :=
  match algorithm_result_shape policy with
  | .direct => .direct p
  | .future => .future p

/-- What a dispatch does that an observer can see: an invocation of the
generator (with the value it produced) or an assignment to a position. -/
inductive Event (α : Type) where
  | invoked (v : α)
  | assigned (pos : Nat) (v : α)
deriving DecidableEq, Repr

/-- Recognises an invocation. -/
def Event.is_invoked {α : Type} : Event α → Bool
  | .invoked _ => true
  | .assigned _ _ => false

/-- Recognises an assignment. -/
def Event.is_assigned {α : Type} : Event α → Bool
  | .invoked _ => false
  | .assigned _ _ => true

/-- The elements the cursors point into, and the events so far, oldest
first. -/
structure World (α : Type) where
  /-- The element stored at each position. -/
  mem : Nat → α
  /-- The events so far, oldest first. -/
  trace : List (Event α)

/-- The number of invocations of the generator recorded in a world. -/
def World.invocations {α : Type} (w : World α) : Nat :=
  w.trace.countP Event.is_invoked

/-- The number of assignments recorded in a world. -/
def World.assignments {α : Type} (w : World α) : Nat :=
  w.trace.countP Event.is_assigned

/-- A zero-argument callable producing a value: a function object with its
own state `state`, whose call operator returns a value and leaves the object
in a new state. -/
structure Generator (σ α : Type) where
  /-- The state the function object is handed over in. -/
  state : σ
  /-- The call operator. -/
  call : σ → α × σ

/-- The values the first `n` invocations of the call operator produce,
starting from state `s`. -/
def call_results {σ α : Type} (call : σ → α × σ) : Nat → σ → List α
  | 0, _ => []
  | n + 1, s => (call s).1 :: call_results call n (call s).2

/-- The values the first `n` invocations of a generator produce. -/
def Generator.results {σ α : Type} (f : Generator σ α) (n : Nat) : List α :=
  call_results f.call n f.state

/-- Modelled from the spec: `distance(begin, end)`, the number of increments
that take `first` to `last`. -/
def distance (first last : Nat) : Nat :=
  last - first

/-- Modelled from the spec: "invoke-and-assign" at one position: the generator
is invoked and its result is assigned to the element at `pos`. -/
def invoke_assign {σ α : Type} (call : σ → α × σ) (pos : Nat) (s : σ) (w : World α) :
    σ × World α :=
  ((call s).2,
   { mem := Function.update w.mem pos (call s).1,
     trace := w.trace ++ [Event.invoked (call s).1, Event.assigned pos (call s).1] })

/-- Modelled from the spec: invoke-and-assign at `n` consecutive positions
from `pos` on, "strictly in increasing order"; returns the cursor reached, the
generator state and the world. -/
def sequential_loop {σ α : Type} (call : σ → α × σ) :
    Nat → Nat → σ → World α → Nat × σ × World α
  | 0, pos, s, w => (pos, s, w)
  | n + 1, pos, s, w =>
    sequential_loop call n (pos + 1) (invoke_assign call pos s w).1
      (invoke_assign call pos s w).2

/-- Modelled from the spec: a chunk, "a contiguous sub-range of positions
assigned to one worker context": the cursor of its next position, its end,
and its own duplicate of the generator. -/
structure Chunk (σ : Type) where
  /-- The next position to process. -/
  cur : Nat
  /-- The end of the chunk. -/
  stop : Nat
  /-- The state of the duplicate of the generator this chunk invokes. -/
  gen : σ
deriving DecidableEq, Repr

/-- Modelled from the spec: a chunk processes its next position, if it has
one ("within a chunk, order is position-increasing"). -/
def Chunk.step {σ α : Type} (call : σ → α × σ) (c : Chunk σ) (w : World α) :
    Chunk σ × World α :=
  if c.cur < c.stop then
    ({ cur := c.cur + 1, stop := c.stop, gen := (invoke_assign call c.cur c.gen w).1 },
     (invoke_assign call c.cur c.gen w).2)
  else
    (c, w)

/-- Modelled from the spec: a chunk runs to its end. -/
def Chunk.finish {σ α : Type} (call : σ → α × σ) (c : Chunk σ) (w : World α) : World α :=
  (sequential_loop call (c.stop - c.cur) c.cur c.gen w).2.2

/-- Modelled from the spec: "partition [begin,end) into chunks".  The chunk
sizes are whatever the chunking heuristic settles on; a size is cut at `last`,
and positions left over when the sizes are used up form one last chunk.  Every
chunk starts with a duplicate `g` of the generator. -/
def partition_chunks {σ : Type} (g : σ) : List Nat → Nat → Nat → List (Chunk σ)
  | [], first, last =>
    if first < last then [{ cur := first, stop := last, gen := g }] else []
  | n :: ns, first, last =>
    if first < last then
      { cur := first, stop := min (first + n) last, gen := g } ::
        partition_chunks g ns (min (first + n) last) last
    else []

/-- Modelled from the spec: the worker pool and the chunking a parallel
dispatch meets, which the spec leaves open ("across chunks, order and worker
assignment are unspecified"): the number of workers, the chunk sizes chosen,
and the schedule, a list of steps `(worker, chunk)` in each of which worker
`worker` processes the next position of chunk number `chunk`. -/
structure Executor where
  /-- The number of worker contexts. -/
  workers : Nat
  /-- The chunk sizes the heuristic chooses. -/
  chunk_sizes : List Nat
  /-- The schedule: at each step, which worker advances which chunk. -/
  picks : List (Nat × Nat)
deriving DecidableEq, Repr

/-- Modelled from the spec: one scheduling step.  A worker the pool does not
have, or a chunk that does not exist, makes no step. -/
def pool_step {σ α : Type} (call : σ → α × σ) (workers : Nat) (pick : Nat × Nat)
    (st : List (Chunk σ) × World α) : List (Chunk σ) × World α :=
  if pick.1 < workers then
    match st.1[pick.2]? with
    | some c => (st.1.set pick.2 (c.step call st.2).1, (c.step call st.2).2)
    | none => st
  else st

/-- Modelled from the spec: the schedule is played step by step. -/
def pool_run {σ α : Type} (call : σ → α × σ) (workers : Nat) (picks : List (Nat × Nat))
    (st : List (Chunk σ) × World α) : List (Chunk σ) × World α :=
  picks.foldl (fun st pick => pool_step call workers pick st) st

/-- Modelled from the spec: "blocks the caller until all chunks complete":
whatever the schedule left unprocessed is run to its end. -/
def pool_drain {σ α : Type} (call : σ → α × σ) (chunks : List (Chunk σ)) (w : World α) :
    World α :=
  chunks.foldl (fun w c => c.finish call w) w

/-- Modelled from the spec: the parallel path: partition, dispatch the chunks
to the pool, wait for all of them, return `last`. -/
def parallel_generate {σ α : Type} (ex : Executor) (first last : Nat) (f : Generator σ α)
    (w : World α) : Nat × World α :=
  (last,
   pool_drain f.call
     (pool_run f.call ex.workers ex.picks
       (partition_chunks f.state ex.chunk_sizes first last, w)).1
     (pool_run f.call ex.workers ex.picks
       (partition_chunks f.state ex.chunk_sizes first last, w)).2)

/-- Modelled from the spec: the sequential path: every position from `first`
to `last` in increasing order on the calling context; returns the cursor
reached "once all positions are consumed". -/
def sequential_generate {σ α : Type} (first last : Nat) (f : Generator σ α) (w : World α) :
    Nat × World α :=
  ((sequential_loop f.call (distance first last) first f.state w).1,
   (sequential_loop f.call (distance first last) first f.state w).2.2)

/-- Modelled from the spec: the iterator overload `generate(policy, first,
last, f)` (the Algorithm Dispatcher of `hpx/parallel/algorithms/generate.hpp`,
which is not among the sources).  The task policies process the elements like
their blocking counterparts and wrap the terminal position in a handle; the
world returned is the one in which the handle has completed. -/
def generate_iterators {σ α : Type} (ex : Executor) (policy : ExecutionPolicy)
    (first last : Nat) (f : Generator σ α) (w : World α) : ResultHandle Nat × World α :=
  if policy.is_parallel then
    (algorithm_result_get policy (parallel_generate ex first last f w).1,
     (parallel_generate ex first last f w).2)
  else
    (algorithm_result_get policy (sequential_generate first last f w).1,
     (sequential_generate first last f w).2)

/-- The cursor extraction `hpx::util::begin` / `hpx::util::end` of a range
type `ρ` with cursors `ι` (`hpx/iterator_support/range.hpp` is not among the
sources, so the pair is a parameter of the overload below). -/
structure RangeTraits (ρ ι : Type) where
  /-- The function `hpx::util::begin`. -/
  range_begin : ρ → ι
  /-- The function `hpx::util::end`. -/
  range_end : ρ → ι

/-- The container overload `generate(policy, rng, f)` of
`container_algorithms/generate.hpp`:
`return generate(policy, hpx::util::begin(rng), hpx::util::end(rng), f)`.
The iterator overload it forwards to is the parameter `iter`; its result type
`R` is arbitrary, so it may be a state transformer that can fail. -/
def generate {π ρ ι F R : Type} (tr : RangeTraits ρ ι) (iter : π → ι → ι → F → R)
    (policy : π) (rng : ρ) (f : F) : R :=
  iter policy (tr.range_begin rng) (tr.range_end rng) f

/-- Modelled from the spec: a container-like range over the positions
`base, …, base + size - 1`. -/
structure Container where
  /-- The first position. -/
  base : Nat
  /-- The number of elements. -/
  size : Nat
deriving DecidableEq, Repr

/-- Modelled from the spec: the Range Adapter for a container: `begin` is its
first position, `end` the position after its last element. -/
def Container.traits : RangeTraits Container Nat where
  range_begin r := r.base
  range_end r := r.base + r.size

/-- The values the elements of a container hold in a world, as a multiset. -/
def range_values {α : Type} (rng : Container) (w : World α) : Multiset α :=
  ((List.range' rng.base rng.size).map w.mem : List α)

/-- The generator that returns the constant `c` at every invocation. -/
def Generator.const {α : Type} (c : α) : Generator Unit α where
  state := ()
  call _ := (c, ())

/-- The generator that counts: its `k`-th invocation returns `start + k - 1`. -/
def Generator.counter (start : Nat) : Generator Nat Nat where
  state := start
  call s := (s, s + 1)

/-- The world in which every element holds `v` and nothing has happened. -/
def World.init {α : Type} (v : α) : World α where
  mem _ := v
  trace := []

/-- The number of positions a list of chunks has not processed yet. -/
def remaining {σ : Type} (chunks : List (Chunk σ)) : Nat :=
  (chunks.map (fun c => c.stop - c.cur)).sum

/-- Position `p` is still to be processed by one of the chunks. -/
def covered {σ : Type} (p : Nat) (chunks : List (Chunk σ)) : Prop :=
  ∃ c ∈ chunks, c.cur ≤ p ∧ p < c.stop

/-! ## Theorems -/

/-- On 32-bit halves the return expression is `hi * 2 ^ 32 + lo`. -/
theorem combine_eq (lo hi : Nat) (hlo : lo < 2 ^ 32) (hhi : hi < 2 ^ 32) :
    linux_x86_64.combine lo hi = hi * 2 ^ 32 + lo := by
  unfold linux_x86_64.combine
  rw [Nat.mod_eq_of_lt hlo, Nat.mod_eq_of_lt hhi, Nat.shiftLeft_eq]
  have h64 : hi * 2 ^ 32 < 2 ^ 64 := by omega
  rw [Nat.mod_eq_of_lt h64, Nat.mul_comm hi, ← Nat.mul_add_lt_is_or hlo]

/-- The locals after the assembly block are 32-bit values. -/
theorem lo_hi_lt (cfg : BuildConfig) (hw : Counters) :
    (linux_x86_64.lo_hi cfg hw).1 < 2 ^ 32 ∧ (linux_x86_64.lo_hi cfg hw).2 < 2 ^ 32 := by
  unfold linux_x86_64.lo_hi
  split
  · exact ⟨Nat.mod_lt _ (by norm_num), Nat.mod_lt _ (by norm_num)⟩
  · split
    · exact ⟨Nat.mod_lt _ (by norm_num), Nat.mod_lt _ (by norm_num)⟩
    · exact ⟨by norm_num, by norm_num⟩

/-- Without an active device pass the x86-64 result is `hi * 2 ^ 32 + lo` of
the locals. -/
theorem timestamp_host (cfg : BuildConfig) (hw : Counters)
    (hc : cfg.cudaActive = false) :
    linux_x86_64.timestamp cfg hw
      = (linux_x86_64.lo_hi cfg hw).2 * 2 ^ 32 + (linux_x86_64.lo_hi cfg hw).1 := by
  unfold linux_x86_64.timestamp
  rw [hc]
  simp only [Bool.false_eq_true, if_false]
  exact combine_eq _ _ (lo_hi_lt cfg hw).1 (lo_hi_lt cfg hw).2

/-- C7: the source read by `timestamp()` is fixed by the build symbols.  With
the device pass active both targets return exactly `timestamp_cuda()`.
Otherwise the x86-64 body combines the registers left by `rdtscp` whenever
`HPX_HAVE_RDTSCP` is defined, and those left by `cpuid ; rdtsc` only when
`HPX_HAVE_RDTSCP` is not defined and `HPX_HAVE_RDTSC` is; the BlueGene/Q body
returns exactly `GetTimeBase()`. -/
theorem C7_timestamp_source (cfg : BuildConfig) (hw : Counters) :
    (cfg.cudaActive = true →
        linux_x86_64.timestamp cfg hw = hw.timestamp_cuda ∧
        bgq.timestamp cfg hw = hw.timestamp_cuda) ∧
    (cfg.cudaActive = false → cfg.HPX_HAVE_RDTSCP = true →
        linux_x86_64.timestamp cfg hw
          = linux_x86_64.combine (hw.rdtscp.1 % 2 ^ 32) (hw.rdtscp.2 % 2 ^ 32)) ∧
    (cfg.cudaActive = false → cfg.HPX_HAVE_RDTSCP = false →
        cfg.HPX_HAVE_RDTSC = true →
        linux_x86_64.timestamp cfg hw
          = linux_x86_64.combine (hw.rdtsc.1 % 2 ^ 32) (hw.rdtsc.2 % 2 ^ 32)) ∧
    (cfg.cudaActive = false → bgq.timestamp cfg hw = hw.GetTimeBase) := by
  refine ⟨fun hc => ?_, fun hc hp => ?_, fun hc hp hr => ?_, fun hc => ?_⟩
  · simp [linux_x86_64.timestamp, bgq.timestamp, hc]
  · simp [linux_x86_64.timestamp, linux_x86_64.lo_hi, hc, hp]
  · simp [linux_x86_64.timestamp, linux_x86_64.lo_hi, hc, hp, hr]
  · simp [bgq.timestamp, hc]

/-- Witness for C7: one build and one set of counter values for each of the
four branches. -/
theorem C7_timestamp_source_witness :
    linux_x86_64.timestamp ⟨true, true, true, true⟩ ⟨11, (1, 2), (3, 4), 99⟩ = 11 ∧
    bgq.timestamp ⟨true, true, true, true⟩ ⟨11, (1, 2), (3, 4), 99⟩ = 11 ∧
    linux_x86_64.timestamp ⟨true, false, true, true⟩ ⟨11, (1, 2), (3, 4), 99⟩
      = linux_x86_64.combine (1 % 2 ^ 32) (2 % 2 ^ 32) ∧
    linux_x86_64.timestamp ⟨false, false, false, true⟩ ⟨11, (1, 2), (3, 4), 99⟩
      = linux_x86_64.combine (3 % 2 ^ 32) (4 % 2 ^ 32) ∧
    bgq.timestamp ⟨false, false, false, false⟩ ⟨11, (1, 2), (3, 4), 99⟩ = 99 :=
  ⟨((C7_timestamp_source ⟨true, true, true, true⟩ ⟨11, (1, 2), (3, 4), 99⟩).1 rfl).1,
   ((C7_timestamp_source ⟨true, true, true, true⟩ ⟨11, (1, 2), (3, 4), 99⟩).1 rfl).2,
   (C7_timestamp_source ⟨true, false, true, true⟩ ⟨11, (1, 2), (3, 4), 99⟩).2.1 rfl rfl,
   (C7_timestamp_source ⟨false, false, false, true⟩ ⟨11, (1, 2), (3, 4), 99⟩).2.2.1
     rfl rfl rfl,
   (C7_timestamp_source ⟨false, false, false, false⟩ ⟨11, (1, 2), (3, 4), 99⟩).2.2.2 rfl⟩

/-- C8: two consecutive host reads on x86-64, in any build (with `rdtscp`,
with only `cpuid ; rdtsc`, or with neither): when the counter `EDX:EAX`
stored into `(lo, hi)` by the first call is not later than the one stored by
the second call, the first result is at most the second. -/
theorem C8_timestamp_monotone (cfg : BuildConfig) (hw₁ hw₂ : Counters)
    (hc : cfg.cudaActive = false)
    (hmono : halvesLE (linux_x86_64.lo_hi cfg hw₁) (linux_x86_64.lo_hi cfg hw₂)) :
    linux_x86_64.timestamp cfg hw₁ ≤ linux_x86_64.timestamp cfg hw₂ := by
  rw [timestamp_host cfg hw₁ hc, timestamp_host cfg hw₂ hc]
  have h₁ := lo_hi_lt cfg hw₁
  have h₂ := lo_hi_lt cfg hw₂
  unfold halvesLE at hmono
  omega

/-- Witness for C8: a build without `rdtscp`, the counter going from
`2 * 2 ^ 32 + 4294967295` to `3 * 2 ^ 32 + 0`. -/
theorem C8_timestamp_monotone_witness :
    linux_x86_64.timestamp ⟨false, false, false, true⟩ ⟨0, (0, 0), (4294967295, 2), 0⟩
      ≤ linux_x86_64.timestamp ⟨false, false, false, true⟩ ⟨0, (0, 0), (0, 3), 0⟩ :=
  C8_timestamp_monotone ⟨false, false, false, true⟩ ⟨0, (0, 0), (4294967295, 2), 0⟩
    ⟨0, (0, 0), (0, 3), 0⟩ rfl (by decide)

/-- C9: an x86-64 host build with neither `HPX_HAVE_RDTSCP` nor
`HPX_HAVE_RDTSC` returns the constant `0` on every call, whatever the
counters hold; the function is total, so no call fails. -/
theorem C9_timestamp_absent (cfg : BuildConfig) (hw : Counters)
    (hc : cfg.cudaActive = false) (hp : cfg.HPX_HAVE_RDTSCP = false)
    (hr : cfg.HPX_HAVE_RDTSC = false) :
    linux_x86_64.timestamp cfg hw = 0 := by
  simp [linux_x86_64.timestamp, linux_x86_64.lo_hi, linux_x86_64.combine, hc, hp, hr]

/-- Witness for C9: a build with CUDA support compiled for the host. -/
theorem C9_timestamp_absent_witness :
    linux_x86_64.timestamp ⟨true, false, false, false⟩ ⟨5, (6, 7), (8, 9), 10⟩ = 0 :=
  C9_timestamp_absent ⟨true, false, false, false⟩ ⟨5, (6, 7), (8, 9), 10⟩ rfl rfl rfl

/-- C10: on an x86-64 host build, for all 32-bit values `lo` and `hi` that the
configured counter read delivers, `timestamp()` returns `hi * 2 ^ 32 + lo`, a
64-bit value whose upper 32 bits are `hi` and whose lower 32 bits are `lo`;
two reads with the same result delivered the same pair. -/
theorem C10_timestamp_combine (cfg : BuildConfig) (hw : Counters) (lo hi : Nat)
    (hc : cfg.cudaActive = false) (hlo : lo < 2 ^ 32) (hhi : hi < 2 ^ 32)
    (hd : delivers cfg hw lo hi) :
    linux_x86_64.timestamp cfg hw = hi * 2 ^ 32 + lo ∧
    linux_x86_64.timestamp cfg hw < 2 ^ 64 ∧
    linux_x86_64.timestamp cfg hw >>> 32 = hi ∧
    linux_x86_64.timestamp cfg hw % 2 ^ 32 = lo ∧
    (∀ (hw₂ : Counters) (lo₂ hi₂ : Nat), lo₂ < 2 ^ 32 → hi₂ < 2 ^ 32 →
      delivers cfg hw₂ lo₂ hi₂ →
      linux_x86_64.timestamp cfg hw₂ = linux_x86_64.timestamp cfg hw →
      hi₂ = hi ∧ lo₂ = lo) := by
  have key : ∀ (h : Counters) (l u : Nat), l < 2 ^ 32 → u < 2 ^ 32 →
      delivers cfg h l u → linux_x86_64.timestamp cfg h = u * 2 ^ 32 + l := by
    intro h l u hl hu hdel
    have hlh : linux_x86_64.lo_hi cfg h = (l, u) := by
      unfold linux_x86_64.lo_hi
      rcases hdel with ⟨hp, hreg⟩ | ⟨hp, hr, hreg⟩
      · rw [if_pos hp, hreg]
        show (l % 2 ^ 32, u % 2 ^ 32) = (l, u)
        rw [Nat.mod_eq_of_lt hl, Nat.mod_eq_of_lt hu]
      · rw [if_neg (by simp [hp]), if_pos hr, hreg]
        show (l % 2 ^ 32, u % 2 ^ 32) = (l, u)
        rw [Nat.mod_eq_of_lt hl, Nat.mod_eq_of_lt hu]
    rw [timestamp_host cfg h hc, hlh]
  have e := key hw lo hi hlo hhi hd
  refine ⟨e, ?_, ?_, ?_, ?_⟩
  · rw [e]; omega
  · rw [e, Nat.shiftRight_eq_div_pow]; omega
  · rw [e]; omega
  · intro hw₂ lo₂ hi₂ hlo₂ hhi₂ hd₂ heq
    rw [key hw₂ lo₂ hi₂ hlo₂ hhi₂ hd₂, e] at heq
    omega

/-- Witness for C10: `rdtscp` delivers `EAX = 4294967295`, `EDX = 3`. -/
theorem C10_timestamp_combine_witness :
    linux_x86_64.timestamp ⟨false, false, true, false⟩ ⟨0, (4294967295, 3), (0, 0), 0⟩
      = 3 * 2 ^ 32 + 4294967295 :=
  (C10_timestamp_combine ⟨false, false, true, false⟩ ⟨0, (4294967295, 3), (0, 0), 0⟩
    4294967295 3 rfl (by norm_num) (by norm_num) (by decide)).1

/-! ### The sequential loop -/

/-- The loop over `n` positions returns the cursor `pos + n`. -/
theorem sequential_loop_cursor {σ α : Type} (call : σ → α × σ) (n pos : Nat) (s : σ)
    (w : World α) : (sequential_loop call n pos s w).1 = pos + n := by
  induction n generalizing pos s w with
  | zero => rfl
  | succ n ih =>
    show (sequential_loop call n (pos + 1) _ _).1 = pos + (n + 1)
    rw [ih]; omega

/-- The loop leaves every position outside `pos, …, pos + n - 1` alone. -/
theorem sequential_loop_mem_outside {σ α : Type} (call : σ → α × σ) (n pos : Nat) (s : σ)
    (w : World α) (p : Nat) (hp : p < pos ∨ pos + n ≤ p) :
    (sequential_loop call n pos s w).2.2.mem p = w.mem p := by
  induction n generalizing pos s w with
  | zero => rfl
  | succ n ih =>
    show (sequential_loop call n (pos + 1) _ _).2.2.mem p = w.mem p
    rw [ih (pos + 1) _ _ (by omega)]
    show Function.update w.mem pos (call s).1 p = w.mem p
    exact Function.update_noteq (by omega) _ _

/-- After the loop, position `pos + i` holds the result of invocation `i + 1`. -/
theorem sequential_loop_mem_results {σ α : Type} (call : σ → α × σ) (n pos : Nat) (s : σ)
    (w : World α) :
    (List.range' pos n).map (sequential_loop call n pos s w).2.2.mem
      = call_results call n s := by
  induction n generalizing pos s w with
  | zero => rfl
  | succ n ih =>
    show (List.range' pos (n + 1)).map
        (sequential_loop call n (pos + 1) (invoke_assign call pos s w).1
          (invoke_assign call pos s w).2).2.2.mem
      = (call s).1 :: call_results call n (call s).2
    rw [List.range'_succ, List.map_cons, ih (pos + 1),
      sequential_loop_mem_outside call n (pos + 1) _ _ pos (by omega)]
    show Function.update w.mem pos (call s).1 pos :: _ = _
    rw [Function.update_same]
    rfl

/-- The loop appends, position after position, one invocation followed by the
assignment of its result. -/
theorem sequential_loop_trace {σ α : Type} (call : σ → α × σ) (n pos : Nat) (s : σ)
    (w : World α) :
    (sequential_loop call n pos s w).2.2.trace
      = w.trace ++ ((List.range' pos n).zip (call_results call n s)).flatMap
          (fun pv => [Event.invoked pv.2, Event.assigned pv.1 pv.2]) := by
  induction n generalizing pos s w with
  | zero => simp [sequential_loop, call_results]
  | succ n ih =>
    show (sequential_loop call n (pos + 1) (invoke_assign call pos s w).1
          (invoke_assign call pos s w).2).2.2.trace = _
    rw [ih (pos + 1)]
    simp [invoke_assign, call_results, List.range'_succ, List.flatMap]

/-- The loop over `n` positions records `n` more invocations and `n` more
assignments. -/
theorem sequential_loop_counts {σ α : Type} (call : σ → α × σ) (n pos : Nat) (s : σ)
    (w : World α) :
    (sequential_loop call n pos s w).2.2.invocations = w.invocations + n ∧
    (sequential_loop call n pos s w).2.2.assignments = w.assignments + n := by
  induction n generalizing pos s w with
  | zero => exact ⟨rfl, rfl⟩
  | succ n ih =>
    have h := ih (pos + 1) (invoke_assign call pos s w).1 (invoke_assign call pos s w).2
    have hi : (invoke_assign call pos s w).2.invocations = w.invocations + 1 := by
      simp [invoke_assign, World.invocations, Event.is_invoked, List.countP_cons]
    have ha : (invoke_assign call pos s w).2.assignments = w.assignments + 1 := by
      simp [invoke_assign, World.assignments, Event.is_assigned, List.countP_cons]
    rw [hi, ha] at h
    refine ⟨?_, ?_⟩
    · show (sequential_loop call n (pos + 1) _ _).2.2.invocations = _
      rw [h.1]; omega
    · show (sequential_loop call n (pos + 1) _ _).2.2.assignments = _
      rw [h.2]; omega

/-- With a call operator that always returns `c`, the loop leaves `c` at every
position it visits. -/
theorem sequential_loop_mem_const {σ α : Type} (call : σ → α × σ) (c : α)
    (hc : ∀ s, (call s).1 = c) (n pos : Nat) (s : σ) (w : World α) (p : Nat)
    (h₁ : pos ≤ p) (h₂ : p < pos + n) :
    (sequential_loop call n pos s w).2.2.mem p = c := by
  induction n generalizing pos s w with
  | zero => omega
  | succ n ih =>
    show (sequential_loop call n (pos + 1) _ _).2.2.mem p = c
    by_cases hp : p = pos
    · rw [sequential_loop_mem_outside call n (pos + 1) _ _ p (by omega), hp]
      show Function.update w.mem pos (call s).1 pos = c
      rw [Function.update_same, hc]
    · exact ih (pos + 1) _ _ (by omega) (by omega)

/-! ### The parallel path -/

/-- The chunks of a partition hold `last - first` positions between them. -/
theorem partition_remaining {σ : Type} (g : σ) (sizes : List Nat) (first last : Nat) :
    remaining (partition_chunks g sizes first last) = last - first := by
  induction sizes generalizing first with
  | nil =>
    unfold partition_chunks
    split
    · simp [remaining]
    · simp [remaining]; omega
  | cons n ns ih =>
    unfold partition_chunks
    split
    · have h := ih (min (first + n) last)
      simp only [remaining, List.map_cons, List.sum_cons] at h ⊢
      rw [h]; omega
    · simp [remaining]; omega

/-- Every position of `[first, last)` lies in a chunk of the partition. -/
theorem partition_covers {σ : Type} (g : σ) (sizes : List Nat) (first last p : Nat)
    (h₁ : first ≤ p) (h₂ : p < last) :
    covered p (partition_chunks g sizes first last) := by
  induction sizes generalizing first with
  | nil =>
    unfold partition_chunks
    rw [if_pos (by omega)]
    exact ⟨_, List.mem_singleton.mpr rfl, h₁, h₂⟩
  | cons n ns ih =>
    unfold partition_chunks
    rw [if_pos (by omega)]
    by_cases hp : p < min (first + n) last
    · exact ⟨_, List.mem_cons_self _ _, h₁, hp⟩
    · obtain ⟨c, hc, hcp⟩ := ih (min (first + n) last) (by omega)
      exact ⟨c, List.mem_cons_of_mem _ hc, hcp⟩

/-- A chunk that is replaced in a list: every other member stays. -/
theorem mem_set_or {β : Type} (l : List β) (k : Nat) (a b x : β)
    (hk : l[k]? = some a) (hx : x ∈ l) : x = a ∨ x ∈ l.set k b := by
  induction l generalizing k with
  | nil => simp at hx
  | cons y ys ih =>
    cases k with
    | zero =>
      simp only [List.getElem?_cons_zero, Option.some.injEq] at hk
      rcases List.mem_cons.mp hx with h | h
      · left; rw [h, hk]
      · right; simp [List.set, h]
    | succ k =>
      simp only [List.getElem?_cons_succ] at hk
      rcases List.mem_cons.mp hx with h | h
      · right; simp [List.set, h]
      · rcases ih k hk h with h | h
        · left; exact h
        · right; simp [List.set, h]

/-- A chunk that is replaced in a list: the replacement is a member. -/
theorem mem_set_new {β : Type} (l : List β) (k : Nat) (a b : β)
    (hk : l[k]? = some a) : b ∈ l.set k b := by
  apply List.mem_set
  by_contra h
  rw [List.getElem?_eq_none (by omega)] at hk
  exact Option.noConfusion hk

/-- Replacing one chunk changes the remaining positions by its difference. -/
theorem remaining_set {σ : Type} (l : List (Chunk σ)) (k : Nat) (a b : Chunk σ)
    (hk : l[k]? = some a) :
    remaining (l.set k b) + (a.stop - a.cur) = remaining l + (b.stop - b.cur) := by
  induction l generalizing k with
  | nil => simp at hk
  | cons y ys ih =>
    cases k with
    | zero =>
      simp only [List.getElem?_cons_zero, Option.some.injEq] at hk
      subst hk
      simp only [remaining, List.set, List.map_cons, List.sum_cons]
      omega
    | succ k =>
      simp only [List.getElem?_cons_succ] at hk
      have h := ih k hk
      simp only [remaining, List.set, List.map_cons, List.sum_cons] at h ⊢
      omega

/-- The invariant rule of one scheduling step. -/
theorem pool_step_invariant {σ α : Type} (call : σ → α × σ) (workers : Nat)
    (P : List (Chunk σ) × World α → Prop)
    (hstep : ∀ (st : List (Chunk σ) × World α) (k : Nat) (c : Chunk σ), P st →
      st.1[k]? = some c → P (st.1.set k (c.step call st.2).1, (c.step call st.2).2))
    (pick : Nat × Nat) (st : List (Chunk σ) × World α) (h : P st) :
    P (pool_step call workers pick st) := by
  unfold pool_step
  split
  · split
    · next c hc => exact hstep st pick.2 c h hc
    · exact h
  · exact h

/-- The invariant rule of a schedule: what every step of a chunk preserves
holds after the whole schedule. -/
theorem pool_run_invariant {σ α : Type} (call : σ → α × σ) (workers : Nat)
    (P : List (Chunk σ) × World α → Prop)
    (hstep : ∀ (st : List (Chunk σ) × World α) (k : Nat) (c : Chunk σ), P st →
      st.1[k]? = some c → P (st.1.set k (c.step call st.2).1, (c.step call st.2).2))
    (picks : List (Nat × Nat)) (st : List (Chunk σ) × World α) (h : P st) :
    P (pool_run call workers picks st) := by
  induction picks generalizing st with
  | nil => exact h
  | cons pick rest ih =>
    exact ih (pool_step call workers pick st)
      (pool_step_invariant call workers P hstep pick st h)

/-- One step of a chunk moves one position from "remaining" to "invoked", and
one to "assigned", or does nothing. -/
theorem chunk_step_counts {σ α : Type} (call : σ → α × σ) (c : Chunk σ) (w : World α) :
    (c.step call w).2.invocations + ((c.step call w).1.stop - (c.step call w).1.cur)
      = w.invocations + (c.stop - c.cur) ∧
    (c.step call w).2.assignments + ((c.step call w).1.stop - (c.step call w).1.cur)
      = w.assignments + (c.stop - c.cur) := by
  unfold Chunk.step
  split
  · have hi : (invoke_assign call c.cur c.gen w).2.invocations = w.invocations + 1 := by
      simp [invoke_assign, World.invocations, Event.is_invoked, List.countP_cons]
    have ha : (invoke_assign call c.cur c.gen w).2.assignments = w.assignments + 1 := by
      simp [invoke_assign, World.assignments, Event.is_assigned, List.countP_cons]
    simp only [hi, ha]
    omega
  · exact ⟨rfl, rfl⟩

/-- Invocations and assignments recorded plus positions remaining stay the
same along a schedule. -/
theorem pool_run_counts {σ α : Type} (call : σ → α × σ) (workers : Nat)
    (picks : List (Nat × Nat)) (st : List (Chunk σ) × World α) :
    (pool_run call workers picks st).2.invocations
        + remaining (pool_run call workers picks st).1
      = st.2.invocations + remaining st.1 ∧
    (pool_run call workers picks st).2.assignments
        + remaining (pool_run call workers picks st).1
      = st.2.assignments + remaining st.1 := by
  apply pool_run_invariant call workers
    (fun t => t.2.invocations + remaining t.1 = st.2.invocations + remaining st.1 ∧
      t.2.assignments + remaining t.1 = st.2.assignments + remaining st.1)
  · intro t k c ht hk
    have h₁ := chunk_step_counts call c t.2
    have h₂ := remaining_set t.1 k c (c.step call t.2).1 hk
    simp only at ht ⊢
    omega
  · exact ⟨rfl, rfl⟩

/-- Running the chunks to their ends records one invocation and one assignment
for each remaining position. -/
theorem pool_drain_counts {σ α : Type} (call : σ → α × σ) (chunks : List (Chunk σ))
    (w : World α) :
    (pool_drain call chunks w).invocations = w.invocations + remaining chunks ∧
    (pool_drain call chunks w).assignments = w.assignments + remaining chunks := by
  induction chunks generalizing w with
  | nil => exact ⟨rfl, rfl⟩
  | cons c cs ih =>
    have h := ih (c.finish call w)
    have hc := sequential_loop_counts call (c.stop - c.cur) c.cur c.gen w
    have hr : remaining (c :: cs) = (c.stop - c.cur) + remaining cs := by
      simp [remaining]
    refine ⟨?_, ?_⟩
    · show (pool_drain call cs (c.finish call w)).invocations = _
      rw [h.1, hr]
      show (sequential_loop call (c.stop - c.cur) c.cur c.gen w).2.2.invocations + _ = _
      rw [hc.1]; omega
    · show (pool_drain call cs (c.finish call w)).assignments = _
      rw [h.2, hr]
      show (sequential_loop call (c.stop - c.cur) c.cur c.gen w).2.2.assignments + _ = _
      rw [hc.2]; omega

/-- The parallel path records `last - first` invocations and as many
assignments, whatever the executor. -/
theorem parallel_generate_counts {σ α : Type} (ex : Executor) (first last : Nat)
    (f : Generator σ α) (w : World α) :
    (parallel_generate ex first last f w).2.invocations = w.invocations + (last - first) ∧
    (parallel_generate ex first last f w).2.assignments = w.assignments + (last - first) := by
  have hrun := pool_run_counts f.call ex.workers ex.picks
    (partition_chunks f.state ex.chunk_sizes first last, w)
  have hdrain := pool_drain_counts f.call
    (pool_run f.call ex.workers ex.picks
      (partition_chunks f.state ex.chunk_sizes first last, w)).1
    (pool_run f.call ex.workers ex.picks
      (partition_chunks f.state ex.chunk_sizes first last, w)).2
  have hpart := partition_remaining f.state ex.chunk_sizes first last
  simp only [hpart] at hrun
  refine ⟨?_, ?_⟩
  · show (pool_drain f.call _ _).invocations = _
    rw [hdrain.1]; omega
  · show (pool_drain f.call _ _).assignments = _
    rw [hdrain.2]; omega

/-- With a call operator that always returns `c`, a chunk running to its end
leaves `c` at its positions and every element either `c` or as it was. -/
theorem chunk_finish_const {σ α : Type} (call : σ → α × σ) (c : α)
    (hc : ∀ s, (call s).1 = c) (ch : Chunk σ) (w : World α) (p : Nat) :
    (ch.cur ≤ p → p < ch.stop → (ch.finish call w).mem p = c) ∧
    ((ch.finish call w).mem p = c ∨ (ch.finish call w).mem p = w.mem p) := by
  have hin : ch.cur ≤ p → p < ch.stop → (ch.finish call w).mem p = c := fun h₁ h₂ =>
    sequential_loop_mem_const call c hc (ch.stop - ch.cur) ch.cur ch.gen w p h₁ (by omega)
  refine ⟨hin, ?_⟩
  by_cases h : ch.cur ≤ p ∧ p < ch.stop
  · exact Or.inl (hin h.1 h.2)
  · exact Or.inr
      (sequential_loop_mem_outside call (ch.stop - ch.cur) ch.cur ch.gen w p (by omega))

/-- With a call operator that always returns `c`: when every position of
`[first, last)` holds `c` or is still covered by a chunk, running the chunks
to their ends leaves `c` at every position of `[first, last)`. -/
theorem pool_drain_const {σ α : Type} (call : σ → α × σ) (c : α)
    (hc : ∀ s, (call s).1 = c) (first last : Nat) (chunks : List (Chunk σ)) (w : World α)
    (hinv : ∀ p, first ≤ p → p < last → w.mem p = c ∨ covered p chunks)
    (p : Nat) (h₁ : first ≤ p) (h₂ : p < last) :
    (pool_drain call chunks w).mem p = c := by
  induction chunks generalizing w with
  | nil =>
    rcases hinv p h₁ h₂ with h | ⟨ch, hch, _⟩
    · exact h
    · simp at hch
  | cons ch cs ih =>
    show (pool_drain call cs (ch.finish call w)).mem p = c
    apply ih
    intro q hq₁ hq₂
    have hf := chunk_finish_const call c hc ch w q
    rcases hinv q hq₁ hq₂ with h | ⟨ch₂, hmem, hlo, hhi⟩
    · rcases hf.2 with h' | h'
      · exact Or.inl h'
      · exact Or.inl (h'.trans h)
    · rcases List.mem_cons.mp hmem with h | h
      · subst h
        exact Or.inl (hf.1 hlo hhi)
      · exact Or.inr ⟨ch₂, h, hlo, hhi⟩

/-- With a call operator that always returns `c`, a schedule preserves: every
position of `[first, last)` holds `c` or is still covered by a chunk. -/
theorem pool_run_const {σ α : Type} (call : σ → α × σ) (c : α)
    (hc : ∀ s, (call s).1 = c) (workers : Nat) (first last : Nat)
    (picks : List (Nat × Nat)) (st : List (Chunk σ) × World α)
    (hinv : ∀ p, first ≤ p → p < last → st.2.mem p = c ∨ covered p st.1) :
    ∀ p, first ≤ p → p < last →
      (pool_run call workers picks st).2.mem p = c
        ∨ covered p (pool_run call workers picks st).1 := by
  apply pool_run_invariant call workers
    (fun t => ∀ p, first ≤ p → p < last → t.2.mem p = c ∨ covered p t.1)
  · intro t k ch ht hk p h₁ h₂
    show (ch.step call t.2).2.mem p = c ∨ covered p (t.1.set k (ch.step call t.2).1)
    unfold Chunk.step
    split
    · next hlt =>
      show Function.update t.2.mem ch.cur (call ch.gen).1 p = c ∨ _
      by_cases hp : p = ch.cur
      · left; rw [hp, Function.update_same, hc]
      · rw [Function.update_noteq hp]
        rcases ht p h₁ h₂ with h | ⟨ch₂, hmem, hlo, hhi⟩
        · exact Or.inl h
        · right
          rcases mem_set_or t.1 k ch
              { cur := ch.cur + 1, stop := ch.stop,
                gen := (invoke_assign call ch.cur ch.gen t.2).1 } ch₂ hk hmem with h | h
          · subst h
            exact ⟨_, mem_set_new t.1 k ch₂ _ hk, by show ch₂.cur + 1 ≤ p; omega, hhi⟩
          · exact ⟨ch₂, h, hlo, hhi⟩
    · rcases ht p h₁ h₂ with h | ⟨ch₂, hmem, hlo, hhi⟩
      · exact Or.inl h
      · right
        rcases mem_set_or t.1 k ch ch ch₂ hk hmem with h | h
        · subst h
          exact ⟨ch₂, mem_set_new t.1 k ch₂ _ hk, hlo, hhi⟩
        · exact ⟨ch₂, h, hlo, hhi⟩
  · exact hinv

/-- With a generator that always returns `c`, the parallel path leaves `c` at
every position of `[first, last)`, whatever the executor. -/
theorem parallel_generate_const {σ α : Type} (ex : Executor) (first last : Nat)
    (f : Generator σ α) (w : World α) (c : α) (hc : ∀ s, (f.call s).1 = c)
    (p : Nat) (h₁ : first ≤ p) (h₂ : p < last) :
    (parallel_generate ex first last f w).2.mem p = c := by
  show (pool_drain f.call _ _).mem p = c
  apply pool_drain_const f.call c hc first last _ _ _ p h₁ h₂
  apply pool_run_const f.call c hc ex.workers first last ex.picks
  intro q hq₁ hq₂
  exact Or.inr (partition_covers f.state ex.chunk_sizes first last q hq₁ hq₂)

/-! ### The claims about `generate` -/

/-- C1: for every execution policy, every container and every generator, one
call `generate(policy, rng, f)` records exactly
`distance(begin(rng), end(rng))` invocations of `f` and exactly as many
assignments, whatever the executor does; over an empty container it records
none, and `begin` equals `end`. -/
theorem C1_generate_counts {σ α : Type} (ex : Executor) (policy : ExecutionPolicy)
    (rng : Container) (f : Generator σ α) (w : World α) :
    (generate Container.traits (generate_iterators ex) policy rng f w).2.invocations
      = w.invocations
        + distance (Container.traits.range_begin rng) (Container.traits.range_end rng) ∧
    (generate Container.traits (generate_iterators ex) policy rng f w).2.assignments
      = w.assignments
        + distance (Container.traits.range_begin rng) (Container.traits.range_end rng) ∧
    (generate Container.traits (generate_iterators ex) policy
        { base := rng.base, size := 0 } f w).2.invocations = w.invocations ∧
    (generate Container.traits (generate_iterators ex) policy
        { base := rng.base, size := 0 } f w).2.assignments = w.assignments ∧
    Container.traits.range_begin { base := rng.base, size := 0 }
      = Container.traits.range_end { base := rng.base, size := 0 } := by
  have key : ∀ r : Container,
      (generate Container.traits (generate_iterators ex) policy r f w).2.invocations
        = w.invocations + r.size ∧
      (generate Container.traits (generate_iterators ex) policy r f w).2.assignments
        = w.assignments + r.size := by
    intro r
    have hd : r.base + r.size - r.base = r.size := Nat.add_sub_cancel_left _ _
    cases hpar : policy.is_parallel
    · have h := sequential_loop_counts f.call (distance r.base (r.base + r.size))
        r.base f.state w
      simp only [distance, hd] at h
      simpa [generate, generate_iterators, hpar, Container.traits, sequential_generate,
        distance, hd] using h
    · have h := parallel_generate_counts ex r.base (r.base + r.size) f w
      simp only [hd] at h
      simpa [generate, generate_iterators, hpar, Container.traits] using h
  have hd : distance (Container.traits.range_begin rng) (Container.traits.range_end rng)
      = rng.size := by
    show rng.base + rng.size - rng.base = rng.size
    exact Nat.add_sub_cancel_left _ _
  rw [hd]
  exact ⟨(key rng).1, (key rng).2, (key ⟨rng.base, 0⟩).1, (key ⟨rng.base, 0⟩).2, rfl⟩

/-- C2: for every container and generator, `generate` returns the end position
of the container: directly under `sequenced` and `parallel`, and as the value
yielded by the returned handle under `sequenced_task` and `parallel_task`. -/
theorem C2_generate_returns_end {σ α : Type} (ex : Executor) (rng : Container)
    (f : Generator σ α) (w : World α) :
    (generate Container.traits (generate_iterators ex) .sequenced rng f w).1
      = .direct (Container.traits.range_end rng) ∧
    (generate Container.traits (generate_iterators ex) .parallel rng f w).1
      = .direct (Container.traits.range_end rng) ∧
    (generate Container.traits (generate_iterators ex) .sequenced_task rng f w).1
      = .future (Container.traits.range_end rng) ∧
    (generate Container.traits (generate_iterators ex) .parallel_task rng f w).1
      = .future (Container.traits.range_end rng) ∧
    ∀ policy : ExecutionPolicy,
      (generate Container.traits (generate_iterators ex) policy rng f w).1.get
        = Container.traits.range_end rng := by
  have hd : rng.base + rng.size - rng.base = rng.size := Nat.add_sub_cancel_left _ _
  have hseq : (sequential_generate rng.base (rng.base + rng.size) f w).1
      = rng.base + rng.size := by
    show (sequential_loop f.call (distance rng.base (rng.base + rng.size)) rng.base
      f.state w).1 = _
    rw [sequential_loop_cursor]
    simp only [distance, hd]
  refine ⟨?_, ?_, ?_, ?_, ?_⟩
  · show algorithm_result_get .sequenced
      (sequential_generate rng.base (rng.base + rng.size) f w).1 = _
    rw [hseq]; rfl
  · rfl
  · show algorithm_result_get .sequenced_task
      (sequential_generate rng.base (rng.base + rng.size) f w).1 = _
    rw [hseq]; rfl
  · rfl
  · intro policy
    cases policy
    · show (algorithm_result_get .sequenced
        (sequential_generate rng.base (rng.base + rng.size) f w).1).get = _
      rw [hseq]; rfl
    · rfl
    · show (algorithm_result_get .sequenced_task
        (sequential_generate rng.base (rng.base + rng.size) f w).1).get = _
      rw [hseq]; rfl
    · rfl

/-- C3: under `sequenced`, `generate` over a container of `n` positions
appends to the trace, for the positions in increasing order, the invocation of
`f` followed by the assignment of its result to that position, so that
afterwards position `base + i` holds the result of invocation `i + 1`; with a
generator that always returns `c` every position of the container holds `c`;
and the end position is returned. -/
theorem C3_generate_sequenced {σ α : Type} (ex : Executor) (rng : Container)
    (f : Generator σ α) (w : World α) :
    (generate Container.traits (generate_iterators ex) .sequenced rng f w).2.trace
      = w.trace ++ ((List.range' rng.base rng.size).zip (f.results rng.size)).flatMap
          (fun pv => [Event.invoked pv.2, Event.assigned pv.1 pv.2]) ∧
    (List.range' rng.base rng.size).map
        (generate Container.traits (generate_iterators ex) .sequenced rng f w).2.mem
      = f.results rng.size ∧
    (∀ c : α, (∀ s, (f.call s).1 = c) → ∀ p, rng.base ≤ p → p < rng.base + rng.size →
      (generate Container.traits (generate_iterators ex) .sequenced rng f w).2.mem p = c) ∧
    (generate Container.traits (generate_iterators ex) .sequenced rng f w).1
      = .direct (Container.traits.range_end rng) := by
  have hd : distance rng.base (rng.base + rng.size) = rng.size := by
    show rng.base + rng.size - rng.base = rng.size
    exact Nat.add_sub_cancel_left _ _
  have hw : (generate Container.traits (generate_iterators ex) .sequenced rng f w).2
      = (sequential_loop f.call rng.size rng.base f.state w).2.2 := by
    show (sequential_loop f.call (distance rng.base (rng.base + rng.size)) rng.base
      f.state w).2.2 = _
    rw [hd]
  rw [hw]
  refine ⟨sequential_loop_trace f.call rng.size rng.base f.state w,
    sequential_loop_mem_results f.call rng.size rng.base f.state w, ?_, ?_⟩
  · intro c hc p h₁ h₂
    exact sequential_loop_mem_const f.call c hc rng.size rng.base f.state w p h₁ h₂
  · show algorithm_result_get .sequenced
      (sequential_loop f.call (distance rng.base (rng.base + rng.size)) rng.base
        f.state w).1 = _
    rw [sequential_loop_cursor, hd]; rfl

/-- Witness for C3: ten positions, the generator that returns the constant
`7`. -/
theorem C3_generate_sequenced_witness :
    (List.range' 0 10).map
        (generate Container.traits (generate_iterators ⟨0, [], []⟩) .sequenced ⟨0, 10⟩
          (Generator.const 7) (World.init 0)).2.mem
      = [7, 7, 7, 7, 7, 7, 7, 7, 7, 7] ∧
    (generate Container.traits (generate_iterators ⟨0, [], []⟩) .sequenced ⟨0, 10⟩
        (Generator.const 7) (World.init 0)).2.mem 9 = 7 ∧
    (generate Container.traits (generate_iterators ⟨0, [], []⟩) .sequenced ⟨0, 10⟩
        (Generator.const 7) (World.init 0)).1 = .direct 10 :=
  ⟨(C3_generate_sequenced ⟨0, [], []⟩ ⟨0, 10⟩ (Generator.const 7) (World.init 0)).2.1,
   (C3_generate_sequenced ⟨0, [], []⟩ ⟨0, 10⟩ (Generator.const 7) (World.init 0)).2.2.1
     7 (fun _ => rfl) 9 (by decide) (by decide),
   (C3_generate_sequenced ⟨0, [], []⟩ ⟨0, 10⟩ (Generator.const 7) (World.init 0)).2.2.2⟩

/-- C4: for every policy, range and generator, the container overload equals
the iterator overload applied to `begin(rng)` and `end(rng)`, with the policy
and the generator passed through unchanged, whatever the iterator overload
is; when the iterator overload is a state transformer that may fail, both
produce the same result, the same final state and the same failure from
every initial state. -/
theorem C4_generate_forwards {π ρ ι F R S E : Type} (tr : RangeTraits ρ ι)
    (iter : π → ι → ι → F → R) (iterM : π → ι → ι → F → S → Except E (R × S))
    (policy : π) (rng : ρ) (f : F) :
    generate tr iter policy rng f = iter policy (tr.range_begin rng) (tr.range_end rng) f ∧
    ∀ s : S, generate tr iterM policy rng f s
      = iterM policy (tr.range_begin rng) (tr.range_end rng) f s :=
  ⟨rfl, fun _ => rfl⟩

/-- C5: the shape of the value `generate` returns is a function of the policy
tag alone: it is the shape the Result Resolver gives for the tag, direct
exactly for `sequenced` and `parallel`, a handle exactly for `sequenced_task`
and `parallel_task`, and the same for any other executor, container,
generator (of any type) and world. -/
theorem C5_result_shape {σ α σ₂ α₂ : Type} (ex ex₂ : Executor) (policy : ExecutionPolicy)
    (rng rng₂ : Container) (f : Generator σ α) (f₂ : Generator σ₂ α₂) (w : World α)
    (w₂ : World α₂) :
    (generate Container.traits (generate_iterators ex) policy rng f w).1.shape
      = algorithm_result_shape policy ∧
    ((generate Container.traits (generate_iterators ex) policy rng f w).1.shape = .direct
      ↔ policy = .sequenced ∨ policy = .parallel) ∧
    ((generate Container.traits (generate_iterators ex) policy rng f w).1.shape = .future
      ↔ policy = .sequenced_task ∨ policy = .parallel_task) ∧
    (generate Container.traits (generate_iterators ex) policy rng f w).1.shape
      = (generate Container.traits (generate_iterators ex₂) policy rng₂ f₂ w₂).1.shape := by
  have key : ∀ {σ' α' : Type} (e : Executor) (r : Container) (g : Generator σ' α')
      (v : World α'),
      (generate Container.traits (generate_iterators e) policy r g v).1.shape
        = algorithm_result_shape policy := by
    intro σ' α' e r g v
    cases policy <;> rfl
  rw [key ex rng f w, key ex₂ rng₂ f₂ w₂]
  refine ⟨rfl, ?_, ?_, rfl⟩
  · cases policy <;> simp [algorithm_result_shape]
  · cases policy <;> simp [algorithm_result_shape]

/-- C6: for every container, every executor (so every partition into chunks
and every order in which the chunks advance) and every generator that always
returns the same value `c`, `generate` under `sequenced` and under `parallel`
leave the same multiset of values in the container, both return the end
position, and under `parallel` every position of the container holds `c`. -/
theorem C6_sequenced_parallel_agree {σ α : Type} (ex : Executor) (rng : Container)
    (f : Generator σ α) (w : World α) (c : α) (hpure : ∀ s, (f.call s).1 = c) :
    range_values rng (generate Container.traits (generate_iterators ex) .sequenced rng f w).2
      = range_values rng
          (generate Container.traits (generate_iterators ex) .parallel rng f w).2 ∧
    (generate Container.traits (generate_iterators ex) .sequenced rng f w).1
      = .direct (Container.traits.range_end rng) ∧
    (generate Container.traits (generate_iterators ex) .parallel rng f w).1
      = .direct (Container.traits.range_end rng) ∧
    (∀ p, rng.base ≤ p → p < rng.base + rng.size →
      (generate Container.traits (generate_iterators ex) .parallel rng f w).2.mem p = c) := by
  have hd : distance rng.base (rng.base + rng.size) = rng.size := by
    show rng.base + rng.size - rng.base = rng.size
    exact Nat.add_sub_cancel_left _ _
  have hseq : ∀ p, rng.base ≤ p → p < rng.base + rng.size →
      (generate Container.traits (generate_iterators ex) .sequenced rng f w).2.mem p = c := by
    intro p h₁ h₂
    show (sequential_loop f.call (distance rng.base (rng.base + rng.size)) rng.base
      f.state w).2.2.mem p = c
    rw [hd]
    exact sequential_loop_mem_const f.call c hpure rng.size rng.base f.state w p h₁ h₂
  have hpar : ∀ p, rng.base ≤ p → p < rng.base + rng.size →
      (generate Container.traits (generate_iterators ex) .parallel rng f w).2.mem p = c :=
    fun p h₁ h₂ =>
      parallel_generate_const ex rng.base (rng.base + rng.size) f w c hpure p h₁ h₂
  refine ⟨?_, ?_, rfl, hpar⟩
  · unfold range_values
    congr 1
    apply List.map_congr_left
    intro p hp
    rw [List.mem_range'_1] at hp
    rw [hseq p hp.1 hp.2, hpar p hp.1 hp.2]
  · show algorithm_result_get .sequenced
      (sequential_loop f.call (distance rng.base (rng.base + rng.size)) rng.base
        f.state w).1 = _
    rw [sequential_loop_cursor, hd]; rfl

/-- Witness for C6: ten positions, the constant `7`, four workers, the chunks
`[0,3)`, `[3,6)`, `[6,8)`, `[8,10)` advancing in a mixed order. -/
theorem C6_sequenced_parallel_agree_witness :
    range_values ⟨0, 10⟩
        (generate Container.traits
          (generate_iterators ⟨4, [3, 3, 2], [(0, 0), (3, 2), (1, 1), (2, 3), (0, 0)]⟩)
          .sequenced ⟨0, 10⟩ (Generator.const 7) (World.init 0)).2
      = range_values ⟨0, 10⟩
        (generate Container.traits
          (generate_iterators ⟨4, [3, 3, 2], [(0, 0), (3, 2), (1, 1), (2, 3), (0, 0)]⟩)
          .parallel ⟨0, 10⟩ (Generator.const 7) (World.init 0)).2 ∧
    (generate Container.traits
        (generate_iterators ⟨4, [3, 3, 2], [(0, 0), (3, 2), (1, 1), (2, 3), (0, 0)]⟩)
        .parallel ⟨0, 10⟩ (Generator.const 7) (World.init 0)).1 = .direct 10 ∧
    (generate Container.traits
        (generate_iterators ⟨4, [3, 3, 2], [(0, 0), (3, 2), (1, 1), (2, 3), (0, 0)]⟩)
        .parallel ⟨0, 10⟩ (Generator.const 7) (World.init 0)).2.mem 9 = 7 :=
  ⟨(C6_sequenced_parallel_agree
      ⟨4, [3, 3, 2], [(0, 0), (3, 2), (1, 1), (2, 3), (0, 0)]⟩ ⟨0, 10⟩
      (Generator.const 7) (World.init 0) 7 (fun _ => rfl)).1,
   (C6_sequenced_parallel_agree
      ⟨4, [3, 3, 2], [(0, 0), (3, 2), (1, 1), (2, 3), (0, 0)]⟩ ⟨0, 10⟩
      (Generator.const 7) (World.init 0) 7 (fun _ => rfl)).2.2.1,
   (C6_sequenced_parallel_agree
      ⟨4, [3, 3, 2], [(0, 0), (3, 2), (1, 1), (2, 3), (0, 0)]⟩ ⟨0, 10⟩
      (Generator.const 7) (World.init 0) 7 (fun _ => rfl)).2.2.2 9 (by decide) (by decide)⟩
